import Mathlib

/- Verification of the oblique-to-axial volumetric resampling engine
   (src/interfaces/nipype_interface_axialsampling.py).

   Geometry (affines, zooms, shapes) is embedded in exact rational
   arithmetic; voxel data values are real numbers (the idealisation of
   the floating-point arrays).  Third-party numeric routines that the
   source calls (nibabel's obliquity, nilearn's resample_img) are not
   part of this repository; they are modelled from the specification
   where noted. -/

namespace Axial

/-- Storage data types a volume's array may carry. -/
inductive DType where
  | float64
  | float32
  | float16
  | int32
  | int16
  | uint16
  deriving DecidableEq

/-- A loaded NIfTI volume: array shape, header zooms (voxel spacing),
4x4 affine transform, voxel data addressed by integer index vectors,
and the array's storage dtype. -/
structure Volume where
  shape : Fin 3 → ℕ
  zooms : Fin 3 → ℚ
  affine : Matrix (Fin 4) (Fin 4) ℚ
  data : (Fin 3 → ℤ) → ℝ
  dtype : DType

/-- Embedding of the first three row/column indices into Fin 4. -/
def emb (i : Fin 3) : Fin 4 := i.castSucc

/-- numpy sign: -1 for negatives, 0 for zero, 1 for positives. -/
def qsign (x : ℚ) : ℚ := if x < 0 then -1 else if 0 < x then 1 else 0

/-- numpy fill_diagonal of a 4x4 matrix with a length-3 value vector:
the flattened values are written along the diagonal, repeating as
needed, so diagonal entry 3 receives v 0. -/
def fill_diagonal (M : Matrix (Fin 4) (Fin 4) ℚ) (v : Fin 3 → ℚ) :
    Matrix (Fin 4) (Fin 4) ℚ :=
  fun i j => if i = j then v ⟨i.val % 3, Nat.mod_lt _ (by norm_num)⟩ else M i j

/-- The canonical axial target affine computed at the top of
resample_to_axial: start from the 4x4 identity, fill the diagonal with
zooms * sign(diag(affine))[:3] (the fill wraps onto entry (3,3)),
reset entry (3,3) to 1, then set the translation column rows 0..2 to
origin * -sign(diag(affine))[:3] where origin = zooms * shape / 2. -/
def base_affine (vol : Volume) : Matrix (Fin 4) (Fin 4) ℚ :=
  let sg : Fin 3 → ℚ := fun i => qsign (vol.affine (emb i) (emb i))
  let origin : Fin 3 → ℚ := fun i => vol.zooms i * (vol.shape i : ℚ) / 2
  let m1 := fill_diagonal 1 (fun i => vol.zooms i * sg i)
  let m2 : Matrix (Fin 4) (Fin 4) ℚ :=
    fun i j => if i = 3 ∧ j = 3 then 1 else m1 i j
  fun i j =>
    if h : i.val < 3 ∧ j = 3 then origin ⟨i.val, h.1⟩ * -(sg ⟨i.val, h.1⟩)
    else m2 i j

/-- The upper-left 3x3 block of a 4x4 affine. -/
def block3 (M : Matrix (Fin 4) (Fin 4) ℚ) : Matrix (Fin 3) (Fin 3) ℚ :=
  Matrix.submatrix M emb emb

/-- Column norms of the 3x3 block, as computed by nibabel's
voxel_sizes helper. -/
noncomputable def voxel_sizes (A : Matrix (Fin 4) (Fin 4) ℚ) (j : Fin 3) : ℝ :=
  Real.sqrt (∑ i : Fin 3, ((A (emb i) (emb j) : ℝ)) ^ 2)

/-- numpy max along a length-3 row. -/
noncomputable def max3 (f : Fin 3 → ℝ) : ℝ := max (f 0) (max (f 1) (f 2))

/-- Modelled from the spec: the per-axis obliquity angle (radians) of
an affine's rotational block, as nibabel computes it — the arccos of
the largest normalised column cosine in each row; the translation is
ignored. -/
noncomputable def obliquity (A : Matrix (Fin 4) (Fin 4) ℚ) (i : Fin 3) : ℝ :=
  Real.arccos (max3 fun j => |(A (emb i) (emb j) : ℝ)| / voxel_sizes A j)

/-- The Euclidean norm of the per-axis obliquity angles converted to
degrees, as computed at the top of resample_files. -/
noncomputable def obliquity_norm (A : Matrix (Fin 4) (Fin 4) ℚ) : ℝ :=
  Real.sqrt (∑ i : Fin 3, (obliquity A i * (180 / Real.pi)) ^ 2)

/-- The obliquity-gate condition of resample_files: skip resampling
when a threshold is present, is truthy (nonzero), and the obliquity
norm is strictly below it. -/
def skip_resampling (A : Matrix (Fin 4) (Fin 4) ℚ) (thr : Option ℝ) : Prop :=
  match thr with
  | none => False
  | some t => t ≠ 0 ∧ obliquity_norm A < t

/-- numpy hypot. -/
noncomputable def hypot (x y : ℝ) : ℝ := Real.sqrt (x ^ 2 + y ^ 2)

/-- numpy arctan2: the argument of the complex number x + y*i, always
in the interval (-pi, pi]. -/
noncomputable def arctan2 (y x : ℝ) : ℝ := Complex.arg ⟨x, y⟩

open Classical in
/-- numpy round (half to even): ties between two integers go to the
even one, otherwise the nearest integer. -/
noncomputable def np_round (x : ℝ) : ℤ :=
  if Int.fract x = 1 / 2 then (if Even ⌊x⌋ then ⌊x⌋ else ⌊x⌋ + 1) else round x

/-- Interpolation modes of the resampler. -/
inductive Interp where
  | continuous
  | nearest
  deriving DecidableEq

/-- Rational inverse of a 4x4 matrix through the adjugate (the true
inverse whenever the determinant is nonzero). -/
def qInv (A : Matrix (Fin 4) (Fin 4) ℚ) : Matrix (Fin 4) (Fin 4) ℚ :=
  A.det⁻¹ • A.adjugate

/-- Apply a 4x4 affine matrix to a 3-point in homogeneous coordinates. -/
def applyAffine (M : Matrix (Fin 4) (Fin 4) ℚ) (v : Fin 3 → ℚ) : Fin 3 → ℚ :=
  fun i => (∑ j : Fin 3, M (emb i) (emb j) * v j) + M (emb i) 3

/-- Voxel-to-voxel coordinate map of the resampler: a target index is
carried to a rational source index through inv(source affine) *
target affine. -/
def srcCoord (srcA tgtA : Matrix (Fin 4) (Fin 4) ℚ) (o : Fin 3 → ℤ) : Fin 3 → ℚ :=
  applyAffine (qInv srcA * tgtA) fun i => (o i : ℚ)

/-- Nearest source voxel of a rational source coordinate. -/
def nearestIndex (c : Fin 3 → ℚ) : Fin 3 → ℤ := fun i => round (c i)

/-- Whether an integer index vector addresses a voxel of an array of
the given shape. -/
def inBounds (shape : Fin 3 → ℕ) (n : Fin 3 → ℤ) : Prop :=
  ∀ i, 0 ≤ n i ∧ n i < shape i

instance (shape : Fin 3 → ℕ) (n : Fin 3 → ℤ) : Decidable (inBounds shape n) := by
  unfold inBounds; infer_instance

/-- Modelled from the spec: continuous (trilinear) interpolation of
the source data at a rational coordinate, with the deterministic zero
fill outside the source's support. -/
noncomputable def triData (src : Volume) (c : Fin 3 → ℚ) : ℝ :=
  ∑ b : Fin 3 → Bool,
    (∏ i : Fin 3, ((if b i then Int.fract (c i) else 1 - Int.fract (c i) : ℚ) : ℝ)) *
      (let n : Fin 3 → ℤ := fun i => ⌊c i⌋ + (if b i then 1 else 0)
       if inBounds src.shape n then src.data n else 0)

/-- The eight corner index vectors of a source array of a given shape. -/
noncomputable def corners (shape : Fin 3 → ℕ) : List (Fin 3 → ℚ) :=
  (Finset.univ : Finset (Fin 3 → Bool)).toList.map
    fun b i => if b i then (shape i : ℚ) - 1 else 0

/-- Modelled from the spec: when no target shape is supplied the
output extent is auto-determined to cover the transformed source
extent. -/
noncomputable def inferred_shape (src : Volume)
    (tgtA : Matrix (Fin 4) (Fin 4) ℚ) : Fin 3 → ℕ :=
  fun i =>
    let cs := (corners src.shape).map fun v => applyAffine (qInv tgtA * src.affine) v i
    ((cs.map Rat.ceil).foldr max 0).toNat + 1

/-- Modelled from the spec: nilearn.image.resample_img.  The output
grid is the target affine with the given shape (or the inferred cover
of the source extent); continuous channels are interpolated
trilinearly, mask channels by nearest neighbour (never blending label
identities); voxels falling outside the source's support receive the
deterministic zero fill. -/
noncomputable def resample_img (src : Volume)
    (target_affine : Matrix (Fin 4) (Fin 4) ℚ)
    (target_shape : Option (Fin 3 → ℕ)) (interpolation : Interp) : Volume where
  shape := target_shape.getD (inferred_shape src target_affine)
  zooms := fun i => |target_affine (emb i) (emb i)|
  affine := target_affine
  data := fun o =>
    match interpolation with
    | .continuous => triData src (srcCoord src.affine target_affine o)
    | .nearest =>
        let n := nearestIndex (srcCoord src.affine target_affine o)
        if inBounds src.shape n then src.data n else 0
  dtype := src.dtype

/-- The real channel mag * cos(phase) built inside resample_to_axial:
a float32 array carrying the phase volume's affine (the header is the
magnitude volume's, with the dtype set to float32). -/
noncomputable def real_nii (mag pha : Volume) : Volume where
  shape := mag.shape
  zooms := mag.zooms
  affine := pha.affine
  data := fun v => mag.data v * Real.cos (pha.data v)
  dtype := .float32

/-- The imaginary channel mag * sin(phase) built inside
resample_to_axial, set up like the real channel. -/
noncomputable def imag_nii (mag pha : Volume) : Volume where
  shape := mag.shape
  zooms := mag.zooms
  affine := pha.affine
  data := fun v => mag.data v * Real.sin (pha.data v)
  dtype := .float32

/-- resample_to_axial: build the canonical axial target affine,
decompose (magnitude, phase) into real and imaginary channels,
resample both continuously (and the optional mask by nearest
neighbour) onto the target grid, then recompose: the magnitude is the
rounded hypot cast to the original magnitude dtype, the phase is
arctan2 cast to float16. -/
noncomputable def resample_to_axial (mag_nii pha_nii : Volume)
    (mask_nii : Option Volume) : Volume × Volume × Option Volume :=
  let base := base_affine mag_nii
  let real_rot := resample_img (real_nii mag_nii pha_nii) base none .continuous
  let imag_rot := resample_img (imag_nii mag_nii pha_nii) base none .continuous
  let mask_rot := mask_nii.map fun m => resample_img m base none .nearest
  let mag_rot : Volume :=
    { shape := real_rot.shape, zooms := mag_nii.zooms, affine := real_rot.affine,
      data := fun v => ((np_round (hypot (real_rot.data v) (imag_rot.data v)) : ℤ) : ℝ),
      dtype := mag_nii.dtype }
  let pha_rot : Volume :=
    { shape := real_rot.shape, zooms := pha_nii.zooms, affine := real_rot.affine,
      data := fun v => arctan2 (imag_rot.data v) (real_rot.data v),
      dtype := .float16 }
  (mag_rot, pha_rot, mask_rot)

/-- The output filename scheme of resample_files and resample_like:
the basename's stem up to its first dot, then "_resampled.", then
everything after the first dot of the full path. -/
def resampled_name (path : String) : String :=
  let base := (path.splitOn "/").getLastD path
  let stem := (base.splitOn ".").headD ""
  let ext := String.intercalate "." ((path.splitOn ".").drop 1)
  stem ++ "_resampled." ++ ext

open Classical in
/-- resample_files on already-loaded volumes paired with their file
names: check the obliquity gate and either return the original
references unchanged, or resample to axial and return the saved file
names (resolved by the OS path resolver abspath); with no mask the
third output is the string "placeholder". -/
noncomputable def resample_files (abspath : String → String)
    (mag_file : String) (mag_nii : Volume) (pha_file : String) (pha_nii : Volume)
    (mask : Option (String × Volume)) (obliquity_threshold : Option ℝ) :
    String × String × Option String :=
  if skip_resampling mag_nii.affine obliquity_threshold then
    (mag_file, pha_file, mask.map Prod.fst)
  else
    let _r := resample_to_axial mag_nii pha_nii (mask.map Prod.snd)
    let mask_out : Option String :=
      match mask with
      | some (mask_file, _) => some (abspath (resampled_name mask_file))
      | none => some "placeholder"
    (abspath (resampled_name mag_file), abspath (resampled_name pha_file), mask_out)

open Classical in
/-- resample_like on already-loaded volumes: the fast path returns the
input file reference with no new volume when the two affines are
exactly element-wise equal; otherwise it resamples the source onto the
reference's affine and shape and returns the saved copy. -/
noncomputable def resample_like (abspath : String → String)
    (in_file : String) (in_nii : Volume) (in_like_nii : Volume)
    (interpolation : Interp) : String × Option Volume :=
  if in_nii.affine = in_like_nii.affine then (in_file, none)
  else
    let out := resample_img in_nii in_like_nii.affine (some in_like_nii.shape)
      interpolation
    (abspath (resampled_name in_file), some out)

/-- The set of label values present at in-bounds voxels of a mask
volume. -/
def maskLabels (v : Volume) : Set ℝ := {q | ∃ n, inBounds v.shape n ∧ v.data n = q}

/-- A 1x1x1 all-ones volume on the identity grid. -/
noncomputable def unitMask : Volume where
  shape := fun _ => 1
  zooms := fun _ => 1
  affine := 1
  data := fun _ => 1
  dtype := .uint16

/-- The diagonal affine diag(2, 2, 2, 1). -/
def diag2 : Matrix (Fin 4) (Fin 4) ℚ :=
  fun i j => if i = j then (if i.val < 3 then 2 else 1) else 0

/-- A 1x1x1 volume whose affine has a zero first diagonal entry. -/
noncomputable def zeroDiagVol : Volume where
  shape := fun _ => 1
  zooms := fun _ => 1
  affine := fun i j => if i = 0 ∧ j = 0 then 0 else (1 : Matrix (Fin 4) (Fin 4) ℚ) i j
  data := fun _ => 1
  dtype := .int16

/-- A constant magnitude volume of value -5 on the identity grid. -/
noncomputable def negMagVol : Volume where
  shape := fun _ => 1
  zooms := fun _ => 1
  affine := 1
  data := fun _ => -5
  dtype := .int16

/-- A constant phase volume of value 0 on the identity grid. -/
noncomputable def zeroPhaVol : Volume where
  shape := fun _ => 1
  zooms := fun _ => 1
  affine := 1
  data := fun _ => 0
  dtype := .float32

/-- A constant magnitude volume of value 0 on the identity grid. -/
noncomputable def zeroMagVol : Volume where
  shape := fun _ => 1
  zooms := fun _ => 1
  affine := 1
  data := fun _ => 0
  dtype := .int16

/-- A constant phase volume of value 3 on the identity grid. -/
noncomputable def threePhaVol : Volume where
  shape := fun _ => 1
  zooms := fun _ => 1
  affine := 1
  data := fun _ => 3
  dtype := .float32

/-- A constant magnitude volume of value 100 on the identity grid. -/
noncomputable def hundredMagVol : Volume where
  shape := fun _ => 1
  zooms := fun _ => 1
  affine := 1
  data := fun _ => 100
  dtype := .int16

/-- The index vector (1, 0, 0). -/
def idx100 : Fin 3 → ℤ := fun i => if i = 0 then 1 else 0

/-- The shape vector (2, 1, 1). -/
def shape211 : Fin 3 → ℕ := fun i => if i = 0 then 2 else 1

/-- C1: for every magnitude volume with zooms s, shape d and affine A,
the target affine T built by resample_to_axial has a diagonal 3x3
block with entries s i * sign(diag A i) (off-diagonal block entries
zero), T 3 3 = 1, and translation column
T i 3 = -sign(diag A i) * (s i * d i / 2). -/
theorem C1_target_affine (vol : Volume) :
    (∀ i j : Fin 3, base_affine vol (emb i) (emb j) =
      if i = j then vol.zooms i * qsign (vol.affine (emb i) (emb i)) else 0) ∧
    base_affine vol 3 3 = 1 ∧
    (∀ i : Fin 3, base_affine vol (emb i) 3 =
      -(qsign (vol.affine (emb i) (emb i))) *
        (vol.zooms i * (vol.shape i : ℚ) / 2)) := by
  refine ⟨?_, ?_, ?_⟩
  · intro i j
    fin_cases i <;> fin_cases j <;>
      simp +decide [base_affine, fill_diagonal, emb, Matrix.one_apply,
        show Fin.castSucc (2 : Fin 3) = (2 : Fin 4) from rfl]
  · simp +decide [base_affine, fill_diagonal, emb]
  · intro i
    fin_cases i <;>
      simp +decide [base_affine, fill_diagonal, emb] <;> ring

/-- The obliquity norm, a Euclidean norm, is never negative. -/
theorem obliquity_norm_nonneg (A : Matrix (Fin 4) (Fin 4) ℚ) :
    0 ≤ obliquity_norm A :=
  Real.sqrt_nonneg _

/-- A purely diagonal affine with positive diagonal entries has
obliquity norm zero. -/
theorem obliquity_norm_diag_pos (A : Matrix (Fin 4) (Fin 4) ℚ)
    (hd : ∀ i j : Fin 4, i ≠ j → A i j = 0) (hp : ∀ i : Fin 4, 0 < A i i) :
    obliquity_norm A = 0 := by
  have hvs : ∀ j : Fin 3, voxel_sizes A j = (A (emb j) (emb j) : ℝ) := by
    intro j
    unfold voxel_sizes
    have hsum : (∑ i : Fin 3, ((A (emb i) (emb j) : ℝ)) ^ 2)
        = ((A (emb j) (emb j) : ℝ)) ^ 2 := by
      refine Finset.sum_eq_single j (fun i _ hij => ?_) (by simp)
      have h0 : A (emb i) (emb j) = 0 :=
        hd _ _ (by simpa [emb, Fin.castSucc_inj] using hij)
      simp [h0]
    rw [hsum, Real.sqrt_sq (by exact_mod_cast (hp (emb j)).le)]
  have hratio : ∀ i j : Fin 3, |(A (emb i) (emb j) : ℝ)| / voxel_sizes A j
      = if i = j then 1 else 0 := by
    intro i j
    rw [hvs j]
    by_cases h : i = j
    · subst h
      rw [if_pos rfl, abs_of_pos (by exact_mod_cast hp (emb i)),
        div_self (by exact_mod_cast (hp (emb i)).ne')]
    · rw [if_neg h,
        hd (emb i) (emb j) (by simpa [emb, Fin.castSucc_inj] using h)]
      simp
  have hobl : ∀ i : Fin 3, obliquity A i = 0 := by
    intro i
    unfold obliquity max3
    simp only [hratio]
    fin_cases i <;> norm_num +decide [Real.arccos_one]
  unfold obliquity_norm
  have hz : (∑ i : Fin 3, (obliquity A i * (180 / Real.pi)) ^ 2) = 0 := by
    refine Finset.sum_eq_zero fun i _ => ?_
    rw [hobl i]
    ring
  rw [hz, Real.sqrt_zero]

/-- C2: resample_files skips resampling and returns the original
(mag_file, pha_file, mask_file) references unchanged exactly when an
obliquity threshold was supplied and the obliquity norm of the
magnitude affine is strictly below it; with no threshold resampling
always proceeds. -/
theorem C2_obliquity_gate (ap : String → String) (mag_file : String)
    (mag_nii : Volume) (pha_file : String) (pha_nii : Volume)
    (mask : Option (String × Volume)) (thr : Option ℝ) :
    (skip_resampling mag_nii.affine thr →
      resample_files ap mag_file mag_nii pha_file pha_nii mask thr =
        (mag_file, pha_file, mask.map Prod.fst)) ∧
    (skip_resampling mag_nii.affine thr ↔
      ∃ t : ℝ, thr = some t ∧ obliquity_norm mag_nii.affine < t) := by
  constructor
  · intro h
    unfold resample_files
    rw [if_pos h]
  · cases thr with
    | none => simp [skip_resampling]
    | some t =>
      constructor
      · rintro ⟨_, hlt⟩
        exact ⟨t, rfl, hlt⟩
      · rintro ⟨t', ht', hlt⟩
        have hte : t' = t := by
          injection ht' with h
          exact h.symm
        subst hte
        refine ⟨?_, hlt⟩
        rintro rfl
        exact absurd hlt (not_lt.mpr (obliquity_norm_nonneg _))

/-- Witness for C2: on the identity affine with threshold 10 degrees
the gate skips and the original references come back unchanged. -/
theorem C2_obliquity_gate_witness :
    resample_files id "mag.nii" unitMask "pha.nii" unitMask none (some 10) =
      ("mag.nii", "pha.nii", none) := by
  have hd : ∀ i j : Fin 4, i ≠ j → unitMask.affine i j = 0 := by
    intro i j h
    simp [unitMask, Matrix.one_apply, h]
  have hp : ∀ i : Fin 4, 0 < unitMask.affine i i := by
    intro i
    simp [unitMask, Matrix.one_apply]
  have h0 : obliquity_norm unitMask.affine = 0 := obliquity_norm_diag_pos _ hd hp
  have hskip : skip_resampling unitMask.affine (some 10) := by
    refine ⟨by norm_num, ?_⟩
    rw [h0]
    norm_num
  have h := (C2_obliquity_gate id "mag.nii" unitMask "pha.nii" unitMask
    none (some 10)).1 hskip
  simpa using h

/-- C3: the obliquity-gate decision is a pure function of the affine
and the threshold (equal inputs give equal decisions); every purely
diagonal affine with positive diagonal entries has obliquity norm 0
and is skipped under any strictly positive threshold. -/
theorem C3_obliquity_gate_pure :
    (∀ (A A' : Matrix (Fin 4) (Fin 4) ℚ) (t t' : Option ℝ), A = A' → t = t' →
      (skip_resampling A t ↔ skip_resampling A' t')) ∧
    (∀ A : Matrix (Fin 4) (Fin 4) ℚ,
      (∀ i j : Fin 4, i ≠ j → A i j = 0) → (∀ i : Fin 4, 0 < A i i) →
      obliquity_norm A = 0 ∧ ∀ t : ℝ, 0 < t → skip_resampling A (some t)) := by
  constructor
  · rintro A A' t t' rfl rfl
    exact Iff.rfl
  · intro A hd hp
    have h0 : obliquity_norm A = 0 := obliquity_norm_diag_pos A hd hp
    refine ⟨h0, fun t ht => ⟨ht.ne', ?_⟩⟩
    rw [h0]
    exact ht

/-- Witness for C3: the affine diag(2, 2, 2, 1) has obliquity norm 0
and is skipped at threshold 10. -/
theorem C3_obliquity_gate_pure_witness :
    obliquity_norm diag2 = 0 ∧ skip_resampling diag2 (some 10) := by
  have hd : ∀ i j : Fin 4, i ≠ j → diag2 i j = 0 := by
    intro i j h
    simp [diag2, h]
  have hp : ∀ i : Fin 4, 0 < diag2 i i := by decide
  have h := C3_obliquity_gate_pure.2 diag2 hd hp
  exact ⟨h.1, h.2 10 (by norm_num)⟩

/-- The 3x3 block entries of the derived target affine (shared helper). -/
theorem base_affine_block (vol : Volume) (i j : Fin 3) :
    base_affine vol (emb i) (emb j) =
      if i = j then vol.zooms i * qsign (vol.affine (emb i) (emb i)) else 0 := by
  fin_cases i <;> fin_cases j <;>
    simp +decide [base_affine, fill_diagonal, emb, Matrix.one_apply,
      show Fin.castSucc (2 : Fin 3) = (2 : Fin 4) from rfl]

/-- C4: decomposition produces real = magnitude * cos(phase) and
imag = magnitude * sin(phase), both stored as float32, and both
derived volumes carry the phase volume's affine. -/
theorem C4_complex_decompose (mag pha : Volume) :
    (∀ v, (real_nii mag pha).data v = mag.data v * Real.cos (pha.data v)) ∧
    (∀ v, (imag_nii mag pha).data v = mag.data v * Real.sin (pha.data v)) ∧
    (real_nii mag pha).affine = pha.affine ∧
    (imag_nii mag pha).affine = pha.affine ∧
    (real_nii mag pha).dtype = DType.float32 ∧
    (imag_nii mag pha).dtype = DType.float32 :=
  ⟨fun _ => rfl, fun _ => rfl, rfl, rfl, rfl, rfl⟩

/-- C5: after interpolation the recomposed magnitude is the
unconditionally rounded hypot of the interpolated real and imaginary
channels carried at the original magnitude dtype (whatever that dtype
is, floating point included), and the recomposed phase is arctan2 at
the reduced float16 precision. -/
theorem C5_recompose (mag pha : Volume) (mask : Option Volume) :
    (∀ v, (resample_to_axial mag pha mask).1.data v =
      ((np_round (hypot
        ((resample_img (real_nii mag pha) (base_affine mag) none
          Interp.continuous).data v)
        ((resample_img (imag_nii mag pha) (base_affine mag) none
          Interp.continuous).data v)) : ℤ) : ℝ)) ∧
    (resample_to_axial mag pha mask).1.dtype = mag.dtype ∧
    (∀ v, (resample_to_axial mag pha mask).2.1.data v =
      arctan2
        ((resample_img (imag_nii mag pha) (base_affine mag) none
          Interp.continuous).data v)
        ((resample_img (real_nii mag pha) (base_affine mag) none
          Interp.continuous).data v)) ∧
    (resample_to_axial mag pha mask).2.1.dtype = DType.float16 :=
  ⟨fun _ => rfl, rfl, fun _ => rfl, rfl⟩

/-- np.round of an integer value is that integer. -/
theorem np_round_intCast (n : ℤ) : np_round ((n : ℤ) : ℝ) = n := by
  unfold np_round
  rw [Int.fract_intCast, if_neg (by norm_num : ¬((0 : ℝ) = 1 / 2)), round_intCast]

/-- np.round moves a value by at most one. -/
theorem np_round_abs_le (x : ℝ) : |((np_round x : ℤ) : ℝ) - x| ≤ 1 := by
  unfold np_round
  split_ifs with h1 h2
  · rw [abs_le]
    constructor <;> linarith [Int.floor_le x, Int.lt_floor_add_one x]
  · push_cast
    rw [abs_le]
    constructor <;> linarith [Int.floor_le x, Int.lt_floor_add_one x]
  · calc |((round x : ℤ) : ℝ) - x| = |x - ((round x : ℤ) : ℝ)| := abs_sub_comm _ _
      _ ≤ 1 / 2 := abs_sub_round x
      _ ≤ 1 := by norm_num

/-- Recomposing a nonnegative magnitude after decomposition moves it
by at most one (the rounding). -/
theorem round_trip_mag (m p : ℝ) (hm : 0 ≤ m) :
    |((np_round (hypot (m * Real.cos p) (m * Real.sin p)) : ℤ) : ℝ) - m| ≤ 1 := by
  have hh : hypot (m * Real.cos p) (m * Real.sin p) = m := by
    unfold hypot
    rw [show (m * Real.cos p) ^ 2 + (m * Real.sin p) ^ 2
        = m ^ 2 * (Real.sin p ^ 2 + Real.cos p ^ 2) by ring,
      Real.sin_sq_add_cos_sq, mul_one, Real.sqrt_sq hm]
  rw [hh]
  exact np_round_abs_le m

/-- Recomposing a strictly positive magnitude returns the phase up to
a multiple of two pi. -/
theorem round_trip_pha (m p : ℝ) (hm : 0 < m) :
    ∃ k : ℤ, arctan2 (m * Real.sin p) (m * Real.cos p)
      = p + 2 * Real.pi * k := by
  have h2pi : 0 < 2 * Real.pi := by positivity
  set d := toIocDiv h2pi (-Real.pi) p with hdd
  set t := toIocMod h2pi (-Real.pi) p with htt
  have hsum : t + d • (2 * Real.pi) = p := toIocMod_add_toIocDiv_zsmul h2pi _ _
  have htp : t = p - (d : ℝ) * (2 * Real.pi) := by
    rw [zsmul_eq_mul] at hsum
    linarith
  have hcos : Real.cos t = Real.cos p := by
    rw [htp]
    exact Real.cos_sub_int_mul_two_pi p d
  have hsin : Real.sin t = Real.sin p := by
    rw [htp]
    exact Real.sin_sub_int_mul_two_pi p d
  have hmem : t ∈ Set.Ioc (-Real.pi) Real.pi := by
    have h := toIocMod_mem_Ioc h2pi (-Real.pi) p
    rwa [show -Real.pi + 2 * Real.pi = Real.pi by ring] at h
  have hz : (⟨m * Real.cos p, m * Real.sin p⟩ : ℂ)
      = (m : ℂ) * (Real.cos t + Real.sin t * Complex.I) := by
    rw [hcos, hsin]
    apply Complex.ext <;>
      simp [Complex.mul_re, Complex.mul_im, -Complex.ofReal_cos, -Complex.ofReal_sin]
  have harg : arctan2 (m * Real.sin p) (m * Real.cos p) = t := by
    unfold arctan2
    rw [hz, Complex.arg_real_mul _ hm, Complex.ofReal_cos, Complex.ofReal_sin,
      Complex.arg_cos_add_sin_mul_I hmem]
  refine ⟨-d, ?_⟩
  rw [harg, htp]
  push_cast
  ring

/-- C6 (amended): decomposing and immediately recomposing moves a
nonnegative magnitude voxel by at most one; the recomposed phase
always lies in (-pi, pi], and at strictly positive magnitude it equals
the input phase up to a multiple of two pi. -/
theorem C6_round_trip (mag pha : Volume) (v : Fin 3 → ℤ)
    (hm : 0 ≤ mag.data v) :
    |((np_round (hypot ((real_nii mag pha).data v)
        ((imag_nii mag pha).data v)) : ℤ) : ℝ) - mag.data v| ≤ 1 ∧
    arctan2 ((imag_nii mag pha).data v) ((real_nii mag pha).data v)
      ∈ Set.Ioc (-Real.pi) Real.pi ∧
    (0 < mag.data v → ∃ k : ℤ,
      arctan2 ((imag_nii mag pha).data v) ((real_nii mag pha).data v)
        = pha.data v + 2 * Real.pi * k) := by
  refine ⟨round_trip_mag _ _ hm, Complex.arg_mem_Ioc _, fun h0 => ?_⟩
  exact round_trip_pha _ _ h0

/-- Witness for C6: a constant magnitude of 100 and phase of 0. -/
theorem C6_round_trip_witness :
    (0 : ℝ) ≤ hundredMagVol.data idx100 ∧
    (|((np_round (hypot ((real_nii hundredMagVol zeroPhaVol).data idx100)
        ((imag_nii hundredMagVol zeroPhaVol).data idx100)) : ℤ) : ℝ)
        - hundredMagVol.data idx100| ≤ 1 ∧
      arctan2 ((imag_nii hundredMagVol zeroPhaVol).data idx100)
        ((real_nii hundredMagVol zeroPhaVol).data idx100)
        ∈ Set.Ioc (-Real.pi) Real.pi ∧
      (0 < hundredMagVol.data idx100 → ∃ k : ℤ,
        arctan2 ((imag_nii hundredMagVol zeroPhaVol).data idx100)
          ((real_nii hundredMagVol zeroPhaVol).data idx100)
          = zeroPhaVol.data idx100 + 2 * Real.pi * k)) :=
  ⟨by norm_num [hundredMagVol],
    C6_round_trip hundredMagVol zeroPhaVol idx100 (by norm_num [hundredMagVol])⟩

/-- Counterexample for C6 as frozen: a voxel of value -5 is moved by
10 on recomposition, and at magnitude 0 the recomposed phase differs
from an input phase of 3 by something that is not a multiple of two
pi. -/
theorem C6_round_trip_counterexample :
    ¬ (|((np_round (hypot ((real_nii negMagVol zeroPhaVol).data idx100)
        ((imag_nii negMagVol zeroPhaVol).data idx100)) : ℤ) : ℝ)
        - negMagVol.data idx100| ≤ 1) ∧
    ¬ (∃ k : ℤ, arctan2 ((imag_nii zeroMagVol threePhaVol).data idx100)
        ((real_nii zeroMagVol threePhaVol).data idx100)
        = threePhaVol.data idx100 + 2 * Real.pi * k) := by
  constructor
  · have hre : (real_nii negMagVol zeroPhaVol).data idx100 = -5 := by
      simp [real_nii, negMagVol, zeroPhaVol]
    have him : (imag_nii negMagVol zeroPhaVol).data idx100 = 0 := by
      simp [imag_nii, negMagVol, zeroPhaVol]
    rw [hre, him]
    have hh : hypot (-5 : ℝ) 0 = 5 := by
      unfold hypot
      rw [show ((-5 : ℝ) ^ 2 + 0 ^ 2) = 5 ^ 2 by norm_num,
        Real.sqrt_sq (by norm_num : (0 : ℝ) ≤ 5)]
    rw [hh, show (5 : ℝ) = ((5 : ℤ) : ℝ) by norm_num, np_round_intCast]
    have hv : negMagVol.data idx100 = -5 := rfl
    rw [hv]
    norm_num
  · rintro ⟨k, hk⟩
    have hre : (real_nii zeroMagVol threePhaVol).data idx100 = 0 := by
      simp [real_nii, zeroMagVol, threePhaVol]
    have him : (imag_nii zeroMagVol threePhaVol).data idx100 = 0 := by
      simp [imag_nii, zeroMagVol, threePhaVol]
    rw [hre, him] at hk
    have hzero : arctan2 (0 : ℝ) 0 = 0 := by
      unfold arctan2
      rw [show ((⟨0, 0⟩ : ℂ)) = 0 from rfl, Complex.arg_zero]
    have hv : threePhaVol.data idx100 = 3 := rfl
    rw [hzero, hv] at hk
    have h2 : 2 * Real.pi * (k : ℝ) = -3 := by linarith
    by_cases hk0 : k = 0
    · rw [hk0] at h2
      norm_num at h2
    · have hk1 : (1 : ℝ) ≤ |(k : ℝ)| := by
        have := Int.one_le_abs hk0
        exact_mod_cast this
      have habs : |2 * Real.pi * (k : ℝ)| = 3 := by
        rw [h2]
        norm_num
      have hgt : (3 : ℝ) < |2 * Real.pi * (k : ℝ)| := by
        rw [abs_mul, abs_of_pos (by positivity : (0 : ℝ) < 2 * Real.pi)]
        nlinarith [Real.pi_gt_three, hk1, abs_nonneg (k : ℝ)]
      rw [habs] at hgt
      exact lt_irrefl _ hgt

/-- C7: the generic reslicer returns the source file reference with no
new volume exactly on the fast path (affines element-wise equal);
otherwise the produced volume sits on the reference's affine and
shape. -/
theorem C7_resample_like (ap : String → String) (in_file : String)
    (in_nii in_like_nii : Volume) (interp : Interp) :
    (in_nii.affine = in_like_nii.affine →
      resample_like ap in_file in_nii in_like_nii interp = (in_file, none)) ∧
    (in_nii.affine ≠ in_like_nii.affine →
      (resample_like ap in_file in_nii in_like_nii interp).2
          = some (resample_img in_nii in_like_nii.affine
              (some in_like_nii.shape) interp) ∧
      (resample_img in_nii in_like_nii.affine
          (some in_like_nii.shape) interp).affine = in_like_nii.affine ∧
      (resample_img in_nii in_like_nii.affine
          (some in_like_nii.shape) interp).shape = in_like_nii.shape) := by
  constructor
  · intro h
    unfold resample_like
    rw [if_pos h]
  · intro h
    unfold resample_like
    rw [if_neg h]
    exact ⟨rfl, rfl, rfl⟩

/-- Witness for C7: equal affines take the fast path. -/
theorem C7_resample_like_witness :
    resample_like id "a.nii" unitMask unitMask Interp.continuous
      = ("a.nii", none) :=
  (C7_resample_like id "a.nii" unitMask unitMask Interp.continuous).1 rfl

/-- The rational adjugate inverse of the identity is the identity. -/
theorem qInv_one : qInv (1 : Matrix (Fin 4) (Fin 4) ℚ) = 1 := by
  unfold qInv
  simp [Matrix.det_one, Matrix.adjugate_one]

/-- Applying the identity affine is the identity map. -/
theorem applyAffine_one (v : Fin 3 → ℚ) : applyAffine 1 v = v := by
  funext i
  unfold applyAffine
  have h3 : emb i ≠ 3 := by fin_cases i <;> decide
  rw [Matrix.one_apply_ne h3, add_zero]
  have hsum : (∑ j : Fin 3, (1 : Matrix (Fin 4) (Fin 4) ℚ) (emb i) (emb j) * v j)
      = ∑ j : Fin 3, (if i = j then v j else 0) := by
    refine Finset.sum_congr rfl fun j _ => ?_
    by_cases h : i = j
    · subst h
      rw [Matrix.one_apply_eq, one_mul, if_pos rfl]
    · rw [Matrix.one_apply_ne (by simpa [emb, Fin.castSucc_inj] using h), zero_mul,
        if_neg h]
  rw [hsum, Finset.sum_ite_eq]
  simp

/-- C8 (amended): every voxel of a nearest-neighbour-resampled mask is
either a label already present in the source mask or the zero fill
value used outside the source's support. -/
theorem C8_mask_labels (src : Volume) (tgtA : Matrix (Fin 4) (Fin 4) ℚ)
    (sh : Option (Fin 3 → ℕ)) (o : Fin 3 → ℤ) :
    (resample_img src tgtA sh Interp.nearest).data o = 0 ∨
    (resample_img src tgtA sh Interp.nearest).data o ∈ maskLabels src := by
  show (if inBounds src.shape (nearestIndex (srcCoord src.affine tgtA o))
      then src.data (nearestIndex (srcCoord src.affine tgtA o)) else 0) = 0 ∨
    (if inBounds src.shape (nearestIndex (srcCoord src.affine tgtA o))
      then src.data (nearestIndex (srcCoord src.affine tgtA o)) else 0)
      ∈ maskLabels src
  by_cases h : inBounds src.shape (nearestIndex (srcCoord src.affine tgtA o))
  · right
    rw [if_pos h]
    exact ⟨_, h, rfl⟩
  · left
    rw [if_neg h]

/-- Counterexample for C8 as frozen: resampling an all-ones 1x1x1 mask
onto a two-voxel grid zero-fills the out-of-support voxel, a label the
source mask does not contain. -/
theorem C8_mask_labels_counterexample :
    (resample_img unitMask (1 : Matrix (Fin 4) (Fin 4) ℚ) (some shape211)
      Interp.nearest).data idx100 = 0 ∧
    (resample_img unitMask (1 : Matrix (Fin 4) (Fin 4) ℚ) (some shape211)
      Interp.nearest).data idx100 ∉ maskLabels unitMask := by
  have hc : srcCoord unitMask.affine (1 : Matrix (Fin 4) (Fin 4) ℚ) idx100
      = fun i => ((idx100 i : ℤ) : ℚ) := by
    show srcCoord 1 1 idx100 = _
    unfold srcCoord
    rw [qInv_one, one_mul, applyAffine_one]
  have hn : nearestIndex (fun i => ((idx100 i : ℤ) : ℚ)) = idx100 := by
    funext i
    unfold nearestIndex
    exact round_intCast _
  have hb : ¬ inBounds unitMask.shape idx100 := by decide
  have hdata : (resample_img unitMask (1 : Matrix (Fin 4) (Fin 4) ℚ)
      (some shape211) Interp.nearest).data idx100 = 0 := by
    show (if inBounds unitMask.shape
        (nearestIndex (srcCoord unitMask.affine 1 idx100))
      then unitMask.data (nearestIndex (srcCoord unitMask.affine 1 idx100))
      else 0) = 0
    rw [hc, hn, if_neg hb]
  refine ⟨hdata, ?_⟩
  rw [hdata]
  rintro ⟨n, _, hval⟩
  have hone : unitMask.data n = 1 := rfl
  rw [hone] at hval
  exact one_ne_zero hval

/-- C9 (amended): resample_to_axial performs no geometry validation
and raises nothing: a zero diagonal entry in the source affine makes
the derived target affine's 3x3 block singular (its first row is
zero), yet the outputs are still produced carrying that affine. -/
theorem C9_no_geometry_validation (vol pha : Volume) (mask : Option Volume)
    (h : vol.affine (emb 0) (emb 0) = 0) :
    (block3 (base_affine vol)).det = 0 ∧
    (resample_to_axial vol pha mask).1.affine = base_affine vol := by
  constructor
  · apply Matrix.det_eq_zero_of_row_eq_zero 0
    intro j
    have hentry : block3 (base_affine vol) 0 j = base_affine vol (emb 0) (emb j) := rfl
    rw [hentry, base_affine_block]
    by_cases hj : (0 : Fin 3) = j
    · rw [if_pos hj, h]
      simp [qsign]
    · rw [if_neg hj]
  · rfl

/-- Witness for C9 (amended): a concrete volume with a zeroed first
diagonal affine entry yields a singular derived affine. -/
theorem C9_no_geometry_validation_witness :
    (block3 (base_affine zeroDiagVol)).det = 0 :=
  (C9_no_geometry_validation zeroDiagVol zeroDiagVol none (by decide)).1

/-- Counterexample for C9 as frozen: on a singular-geometry input no
error is produced — resample_to_axial returns its outputs by the
normal construction even though the derived 3x3 block is singular. -/
theorem C9_counterexample :
    (block3 (base_affine zeroDiagVol)).det = 0 ∧
    (resample_to_axial zeroDiagVol zeroDiagVol none).2.2 = none ∧
    (resample_to_axial zeroDiagVol zeroDiagVol none).1.affine
      = base_affine zeroDiagVol := by
  refine ⟨?_, rfl, rfl⟩
  apply Matrix.det_eq_zero_of_row_eq_zero 0
  intro j
  have hentry : block3 (base_affine zeroDiagVol) 0 j
      = base_affine zeroDiagVol (emb 0) (emb j) := rfl
  rw [hentry, base_affine_block]
  have h0 : qsign (zeroDiagVol.affine (emb 0) (emb 0)) = 0 := by decide
  by_cases hj : (0 : Fin 3) = j
  · rw [if_pos hj, h0, mul_zero]
  · rw [if_neg hj]

/-- C10: when no mask is supplied and the obliquity gate does not
skip, the third element of the returned triple is the literal string
"placeholder". -/
theorem C10_placeholder (ap : String → String) (mag_file : String)
    (mag_nii : Volume) (pha_file : String) (pha_nii : Volume)
    (thr : Option ℝ) (h : ¬ skip_resampling mag_nii.affine thr) :
    (resample_files ap mag_file mag_nii pha_file pha_nii none thr).2.2
      = some "placeholder" := by
  unfold resample_files
  rw [if_neg h]

/-- Witness for C10: with no threshold the gate never skips and the
placeholder string is returned. -/
theorem C10_placeholder_witness :
    (resample_files id "m.nii" unitMask "p.nii" unitMask none none).2.2
      = some "placeholder" :=
  C10_placeholder id "m.nii" unitMask "p.nii" unitMask none
    (by simp [skip_resampling])

end Axial
